import Mathlib

set_option maxRecDepth 4096

namespace EvidencePack

/-! Shallow embedding of the ci-evidence-pack core: the deterministic archive
builder (`pack.create_bundle`, step 6), the canonical manifest
(`manifest.generate_manifest`), the safe extractor (`verify.safe_extract`) and
the strict verifier (`verify.verify_manifest`).  Characters are modeled as
natural-number code points, file contents as lists of code points, and the
SHA-256 digest engine (`manifest.calculate_file_hash`) as an explicit function
parameter `H`, since no claim depends on the internals of the hash. -/

/-- Characters as natural-number code points. -/
abbrev Ch := Nat

/-- Convert a Lean string literal to its list of code points. -/
def str2l (s : String) : List Ch := s.data.map Char.toNat

/-- Whitespace characters stripped by Python `str.strip()` (ASCII subset). -/
def pyWsChars : List Ch := [32, 9, 10, 13, 11, 12]

def isWsB (c : Ch) : Bool := pyWsChars.contains c

/-- Model of Python `str.strip()`: drop leading and trailing whitespace. -/
def pyStrip (l : List Ch) : List Ch :=
  ((l.dropWhile isWsB).reverse.dropWhile isWsB).reverse

/-- Model of Python `line.split("  ", 1)` when it yields exactly two parts:
split at the first occurrence of two consecutive spaces. Returns `none` when
no two-space separator occurs (`len(parts) != 2` in the source). -/
def split2 : List Ch → Option (List Ch × List Ch)
  | 32 :: 32 :: rest => some ([], rest)
  | c :: rest => (split2 rest).map (fun pr => (c :: pr.1, pr.2))
  | [] => none

/-- Model of one iteration of the manifest-loading loop in
`verify.verify_manifest`: strip the line, skip it when blank, split on the
first two spaces, skip when the split does not yield two parts. -/
def parseLine (l : List Ch) : Option (List Ch × List Ch) :=
  match pyStrip l with
  | [] => none
  | t => split2 t

/-- Python `dict` as an insertion-ordered association list with unique keys. -/
abbrev DictC := List (List Ch × List Ch)

/-- Model of `d[k] = v` on a Python dict: overwrite in place or append. -/
def dictInsert : DictC → List Ch → List Ch → DictC
  | [], k, v => [(k, v)]
  | (k', v') :: rest, k, v =>
    if k' = k then (k', v) :: rest else (k', v') :: dictInsert rest k v

def dictLookup : DictC → List Ch → Option (List Ch)
  | [], _ => none
  | (k', v') :: rest, k => if k' = k then some v' else dictLookup rest k

def dictKeys (d : DictC) : List (List Ch) := d.map Prod.fst

def dictGetD (d : DictC) (k : List Ch) (dflt : List Ch) : List Ch :=
  (dictLookup d k).getD dflt

/-- One iteration of the manifest-loading loop: malformed or blank lines
leave the dict unchanged, well-formed lines assign `expected[p] = h`. -/
def parseStep (d : DictC) (l : List Ch) : DictC :=
  match parseLine l with
  | none => d
  | some hp => dictInsert d hp.2 hp.1

/-- The manifest-loading loop of `verify.verify_manifest` (lines 66-75):
`expected = {}` then `expected[p] = h` for every well-formed line. -/
def parseLines (ls : List (List Ch)) : DictC :=
  ls.foldl parseStep []

/-- Split file content into lines at newline characters, as iterating over a
text-mode Python file (followed by `strip()`) effectively does. -/
def splitNl (l : List Ch) : List (List Ch) := l.splitOn 10

/-- A UTF-8 continuation byte (`0x80`-`0xBF`). -/
def isContByte (c : Nat) : Bool := 128 ≤ c && c ≤ 191

/-- Strict UTF-8 decoding of a byte sequence into code points, as the
text-mode `open(manifest_file, "r", encoding="utf-8")` read in
`verify.verify_manifest` performs it; `none` models a raised
`UnicodeDecodeError` (invalid start byte, missing or invalid continuation
byte, overlong form, surrogate, or out-of-range code point). -/
def utf8Decode : List Nat → Option (List Ch)
  | [] => some []
  | b :: rest =>
    if b ≤ 127 then
      match utf8Decode rest with
      | some cs => some (b :: cs)
      | none => none
    else if 194 ≤ b && b ≤ 223 then
      match rest with
      | c1 :: rest2 =>
        if isContByte c1 then
          match utf8Decode rest2 with
          | some cs => some (((b - 192) * 64 + (c1 - 128)) :: cs)
          | none => none
        else none
      | [] => none
    else if 224 ≤ b && b ≤ 239 then
      match rest with
      | c1 :: c2 :: rest3 =>
        if (if b = 224 then 160 ≤ c1 && c1 ≤ 191
            else if b = 237 then 128 ≤ c1 && c1 ≤ 159
            else isContByte c1) && isContByte c2 then
          match utf8Decode rest3 with
          | some cs => some (((b - 224) * 4096 + (c1 - 128) * 64 + (c2 - 128)) :: cs)
          | none => none
        else none
      | _ => none
    else if 240 ≤ b && b ≤ 244 then
      match rest with
      | c1 :: c2 :: c3 :: rest4 =>
        if (if b = 240 then 144 ≤ c1 && c1 ≤ 191
            else if b = 244 then 128 ≤ c1 && c1 ≤ 143
            else isContByte c1) && isContByte c2 && isContByte c3 then
          match utf8Decode rest4 with
          | some cs =>
            some (((b - 240) * 262144 + (c1 - 128) * 4096 + (c2 - 128) * 64 +
              (c3 - 128)) :: cs)
          | none => none
        else none
      | _ => none
    else none

/-- The manifest-loading phase of `verify.verify_manifest` at byte level: the
manifest file is opened in text mode with `encoding="utf-8"`, so its raw
bytes are decoded first — raising `UnicodeDecodeError` (modeled as `none`) on
invalid UTF-8 — and only a successfully decoded text is split into lines and
fed to the permissive line parser. -/
def parseManifestBytes (bs : List Nat) : Option DictC :=
  match utf8Decode bs with
  | none => none
  | some cs => some (parseLines (splitNl cs))

/-- Lexicographic (code-point) comparison of strings, the order used by
Python `<` on `str` and hence by `sorted()` on path strings. -/
def strLt : List Ch → List Ch → Bool
  | [], [] => false
  | [], _ :: _ => true
  | _ :: _, [] => false
  | a :: as, b :: bs => if a < b then true else if a = b then strLt as bs else false

/-- Stable insertion of `x` into a list ascending by the key `k`. -/
def insertSorted (k : α → List Ch) (x : α) : List α → List α
  | [] => [x]
  | y :: ys => if strLt (k x) (k y) then x :: y :: ys else y :: insertSorted k x ys

/-- Model of Python `sorted()` by the string key `k`: a stable ascending sort. -/
def sortAsc (k : α → List Ch) (l : List α) : List α := l.foldr (insertSorted k) []

/-- Join path segments with `/`, as `str(PurePosixPath)` renders a relative
path. -/
def joinSegs : List (List Ch) → List Ch
  | [] => []
  | [s] => s
  | s :: rest => s ++ 47 :: joinSegs rest

/-- Model of `pathlib.Path(name).parts` for a relative name: split on `/`,
dropping empty segments and `.` segments (pathlib keeps `..`). -/
def pyParts (s : List Ch) : List (List Ch) :=
  ((s.splitOn 47).filter (fun t => !(t == []))).filter (fun t => !(t == [46]))

/-- Model of `PurePosixPath.is_absolute()`: the name starts with `/`. -/
def pyIsAbs (s : List Ch) : Bool :=
  match s with
  | 47 :: _ => true
  | _ => false

/-! Model of `util.get_source_date_epoch` and Python `int(str)` parsing. -/

def isDigitB (c : Ch) : Bool := 48 ≤ c && c ≤ 57

/-- Tail of a Python integer literal after its first digit: digits with
single underscores allowed between digits. -/
def validIntTail : List Ch → Bool
  | [] => true
  | 95 :: c :: rest => isDigitB c && validIntTail rest
  | c :: rest => isDigitB c && validIntTail rest

def validDigitSeq : List Ch → Bool
  | [] => false
  | c :: rest => isDigitB c && validIntTail rest

def digitsVal (l : List Ch) : Nat :=
  (l.filter (fun c => !(c == 95))).foldl (fun a c => a * 10 + (c - 48)) 0

/-- Model of Python `int(str)`: optional surrounding whitespace, optional
sign, then a digit sequence (underscores permitted between digits); `none`
models `ValueError`. -/
def pyParseInt (l : List Ch) : Option Int :=
  let t := pyStrip l
  match t with
  | 43 :: rest => if validDigitSeq rest then some (digitsVal rest) else none
  | 45 :: rest => if validDigitSeq rest then some (-(digitsVal rest : Int)) else none
  | rest => if validDigitSeq rest then some (digitsVal rest) else none

/-- Model of `util.get_source_date_epoch`: read the environment variable
(`none` models an unset variable, in which case the default string "0" is
used), parse it as an int, and return 0 on a parse failure instead of
failing. -/
def get_source_date_epoch (env : Option (List Ch)) : Int :=
  match pyParseInt (env.getD (str2l "0")) with
  | some n => n
  | none => 0

/-- The `created_at_epoch` field that `create_bundle` writes into
`metadata/metadata.json`: it is `get_source_date_epoch()`. -/
def metadata_created_at_epoch (env : Option (List Ch)) : Int :=
  get_source_date_epoch env

/-! The staged tree and the deterministic archive builder
(`pack.create_bundle`, step 6 "Pack"). -/

/-- Filesystem metadata of a staged file or directory: the fields that
`tarfile.TarFile.gettarinfo` copies from `stat()` and that
`pack.normalize_tarinfo` then normalizes, plus the permission bits, which are
kept. -/
structure FileMeta where
  mtime : Int
  uid : Nat
  gid : Nat
  uname : List Ch
  gname : List Ch
  mode : Nat
deriving DecidableEq, Repr

/-- A staged filesystem entry is a regular file (whose content is `none` when
the file is unreadable, modeling an `OSError` on `open`) or a directory. -/
inductive EntryKind
  | file (content : Option (List Ch))
  | dir
deriving DecidableEq, Repr

/-- An entry of the staged working tree, identified by its path segments
relative to the staging root. -/
structure StagedEntry where
  segs : List (List Ch)
  kind : EntryKind
  meta : FileMeta
deriving DecidableEq, Repr

/-- Tar member types relevant to the core: regular file, directory, symbolic
link, hard link. -/
inductive TarType
  | reg
  | dir
  | sym
  | lnk
deriving DecidableEq, Repr

/-- A serialized tar member: `arcname`, entry type, content bytes, and the
metadata fields the builder normalizes. -/
structure TarMember where
  name : List Ch
  type : TarType
  content : List Ch
  mtime : Int
  uid : Nat
  gid : Nat
  uname : List Ch
  gname : List Ch
  mode : Nat
deriving DecidableEq, Repr

/-- The tar entry that `gettarinfo` produces for a staged regular file,
before normalization: real metadata copied from the filesystem. -/
def raw_tarinfo_file (e : StagedEntry) (c : List Ch) : TarMember :=
  { name := joinSegs e.segs, type := .reg, content := c, mtime := e.meta.mtime,
    uid := e.meta.uid, gid := e.meta.gid, uname := e.meta.uname,
    gname := e.meta.gname, mode := e.meta.mode }

/-- The tar entry that `gettarinfo` produces for a staged directory, before
normalization. -/
def raw_tarinfo_dir (e : StagedEntry) : TarMember :=
  { name := joinSegs e.segs, type := .dir, content := [], mtime := e.meta.mtime,
    uid := e.meta.uid, gid := e.meta.gid, uname := e.meta.uname,
    gname := e.meta.gname, mode := e.meta.mode }

/-- Model of `pack.normalize_tarinfo` with the ambient
`get_source_date_epoch()` value passed as `epoch`: zero ownership, clear
owner and group names, force the modification time. -/
def normalize_tarinfo (t : TarMember) (epoch : Int) : TarMember :=
  { t with uid := 0, gid := 0, uname := [], gname := [], mtime := epoch }

/-- The relative-path string of a staged entry (`str(p.relative_to(stage_dir))`),
the sort key of the builder's `sorted(stage_dir.rglob("*"))`. -/
def entryKey (e : StagedEntry) : List Ch := joinSegs e.segs

def dsName : List Ch := str2l ".DS_Store"

/-- The `p.name == ".DS_Store"` skip condition of the builder's tar loop:
`p.name` is the final path segment. -/
def dsSkip (e : StagedEntry) : Bool := e.segs.getLast? == some dsName

/-- An entry's content can be read (directories always; regular files unless
opening them fails). -/
def readableB (e : StagedEntry) : Bool :=
  match e.kind with
  | .file none => false
  | _ => true

inductive PackErr
  | readError (path : List Ch)
deriving DecidableEq, Repr

/-- Model of the builder's tar loop (`pack.create_bundle` lines 244-249):
walk the sorted entries, skip `.DS_Store` names, and add each remaining entry
individually (`recursive=False`) after normalizing its metadata; an
unreadable file aborts the loop, leaving the members already written. -/
def addLoop (epoch : Int) : List StagedEntry → List TarMember × Option PackErr
  | [] => ([], none)
  | e :: rest =>
    if dsSkip e then addLoop epoch rest
    else
      match e.kind with
      | .dir =>
        let r := addLoop epoch rest
        (normalize_tarinfo (raw_tarinfo_dir e) epoch :: r.1, r.2)
      | .file (some c) =>
        let r := addLoop epoch rest
        (normalize_tarinfo (raw_tarinfo_file e c) epoch :: r.1, r.2)
      | .file none => ([], some (.readError (joinSegs e.segs)))

/-- `sorted(stage_dir.rglob("*"))`: the staged entries in ascending order of
their relative-path string (Python compares paths by their string). -/
def stageSorted (s : List StagedEntry) : List StagedEntry := sortAsc entryKey s

/-- The pack step of `create_bundle`: the stream of tar members written to the
output file, together with the error that aborted the loop, if any. -/
def packRun (s : List StagedEntry) (epoch : Int) : List TarMember × Option PackErr :=
  addLoop epoch (stageSorted s)

/-- The bytes present at the bundle's output path after the pack step: the
file is opened with mode `"wb"` before the loop starts and is never removed,
so it always exists and holds the members serialized so far. -/
def outputFileAfterPack (s : List StagedEntry) (epoch : Int) : Option (List TarMember) :=
  some (packRun s epoch).1

/-- The complete compressed archive: the gzip wrapper fields chosen by
`gzip.GzipFile(filename="", ..., mtime=0)` plus the tar member stream. -/
structure Archive where
  gzipMtime : Int
  gzipFname : Option (List Ch)
  members : List TarMember
deriving DecidableEq, Repr

inductive PackResult
  | ok (a : Archive)
  | err (e : PackErr)
deriving DecidableEq, Repr

/-- The archive produced by the pack step of `create_bundle` when every
source file is readable. -/
def create_archive (s : List StagedEntry) (epoch : Int) : PackResult :=
  match (packRun s epoch).2 with
  | some e => .err e
  | none => .ok { gzipMtime := 0, gzipFname := none, members := (packRun s epoch).1 }

/-- The member that the tar loop writes for a staged entry, or `none` when
the entry's content cannot be read. Used to characterize the loop. -/
def mkMember (epoch : Int) (e : StagedEntry) : Option TarMember :=
  match e.kind with
  | .dir => some (normalize_tarinfo (raw_tarinfo_dir e) epoch)
  | .file (some c) => some (normalize_tarinfo (raw_tarinfo_file e c) epoch)
  | .file none => none

/-! The safe extractor (`verify.safe_extract`). -/

inductive ExtractErr
  | absolutePath (name : List Ch)
  | traversal (name : List Ch)
  | linkMember (name : List Ch)
deriving DecidableEq, Repr

def dotdotSeg : List Ch := [46, 46]

/-- Model of `verify.safe_extract`: iterate over the members; for each member
reject absolute paths, `..` segments, and symlink/hardlink types, raising at
the first offender; otherwise extract the member into the destination before
examining the next one. The first component is the list of members already
written to the destination when the loop ends. -/
def safe_extract : List TarMember → List TarMember × Option ExtractErr
  | [] => ([], none)
  | m :: rest =>
    if pyIsAbs m.name then ([], some (.absolutePath m.name))
    else if dotdotSeg ∈ pyParts m.name then ([], some (.traversal m.name))
    else if m.type = .sym ∨ m.type = .lnk then ([], some (.linkMember m.name))
    else
      let r := safe_extract rest
      (m :: r.1, r.2)

/-- The per-member rejection rules of `safe_extract`, in evaluation order. -/
def memberCheck (m : TarMember) : Option ExtractErr :=
  if pyIsAbs m.name then some (.absolutePath m.name)
  else if dotdotSeg ∈ pyParts m.name then some (.traversal m.name)
  else if m.type = .sym ∨ m.type = .lnk then some (.linkMember m.name)
  else none

/-! The canonical manifest (`manifest.generate_manifest`). -/

/-- The skip condition of `generate_manifest` (line 37):
`rel_path.parts[0] == "manifest" and rel_path.name == "sha256sum.txt"`. -/
def manifestExcluded (segs : List (List Ch)) : Bool :=
  segs.head? == some (str2l "manifest") && segs.getLast? == some (str2l "sha256sum.txt")

/-- The designated path of the embedded manifest. -/
def designatedSegs : List (List Ch) := [str2l "manifest", str2l "sha256sum.txt"]

def designatedStr : List Ch := str2l "manifest/sha256sum.txt"

/-- The `(str(rel_path), content)` pairs that `generate_manifest` hashes: the
regular files of the sorted walk, minus the excluded names. Unreadable files
are omitted here; on the real filesystem they would abort the walk with an
exception, and every claim about the manifest assumes a readable tree. -/
def inclPairs (s : List StagedEntry) : List (List Ch × List Ch) :=
  (stageSorted s).filterMap
    (fun e =>
      match e.kind with
      | .file (some c) =>
        if manifestExcluded e.segs then none else some (joinSegs e.segs, c)
      | _ => none)

/-- The `hashes` dict of `generate_manifest`, built in walk order. -/
def manifestDict (H : List Ch → List Ch) (s : List StagedEntry) : DictC :=
  (inclPairs s).foldl (fun d kv => dictInsert d kv.1 (H kv.2)) []

def sepTwo : List Ch := [32, 32]

/-- The lines written to `manifest/sha256sum.txt`: one line
`f"{hashes[path]}  {path}\n"` for each key of the dict, in sorted key order. -/
def manifestLines (H : List Ch → List Ch) (s : List StagedEntry) : List (List Ch) :=
  (sortAsc (fun p => p) (dictKeys (manifestDict H s))).map
    (fun p => dictGetD (manifestDict H s) p [] ++ sepTwo ++ p ++ [10])

/-- The full content of the generated `manifest/sha256sum.txt`. -/
def manifestContent (H : List Ch → List Ch) (s : List StagedEntry) : List Ch :=
  (manifestLines H s).flatten

/-- The staged tree after `generate_manifest` has written
`manifest/sha256sum.txt` (replacing any previous file at that path). -/
def treeAfterManifest (H : List Ch → List Ch) (s : List StagedEntry)
    (mMeta : FileMeta) : List StagedEntry :=
  s.filter (fun e => !(e.segs == designatedSegs)) ++
    [{ segs := designatedSegs, kind := .file (some (manifestContent H s)), meta := mMeta }]

/-! The strict verifier (`verify.verify_manifest`). -/

/-- A regular file of the extracted tree, as seen by the verifier's walk. -/
structure VFile where
  segs : List (List Ch)
  content : List Ch
deriving DecidableEq, Repr

inductive VErr
  | manifestMissing
  | unexpectedFile (path : List Ch)
  | hashMismatch (path expectedHash gotHash : List Ch)
  | missingFile (path : List Ch)
deriving DecidableEq, Repr

inductive VResult
  | ok
  | err (e : VErr)
deriving DecidableEq, Repr

inductive WalkRes
  | ok (found : List (List Ch))
  | err (e : VErr)
deriving DecidableEq, Repr

/-- Locate the embedded manifest at its fixed path and return its content. -/
def findManifest (files : List VFile) : Option (List Ch) :=
  (files.find? (fun f => joinSegs f.segs == designatedStr)).map VFile.content

/-- The verifier's walk over the extracted regular files (lines 84-104):
skip `.DS_Store` names and the manifest file itself; record each other path
as found; fail on a path absent from the expected dict; fail on a digest
mismatch. -/
def walkLoop (H : List Ch → List Ch) (expected : DictC) :
    List VFile → List (List Ch) → WalkRes
  | [], found => .ok found
  | f :: rest, found =>
    if f.segs.getLast? = some dsName then walkLoop H expected rest found
    else if joinSegs f.segs = designatedStr then walkLoop H expected rest found
    else
      let rel := joinSegs f.segs
      let found' := rel :: found
      match dictLookup expected rel with
      | none => .err (.unexpectedFile rel)
      | some d =>
        if H f.content = d then walkLoop H expected rest found'
        else .err (.hashMismatch rel d (H f.content))

/-- The completeness check (lines 107-109): every expected path must have
been observed by the walk. -/
def checkMissing (found : List (List Ch)) : DictC → VResult
  | [] => .ok
  | (p, _) :: rest => if p ∈ found then checkMissing found rest else .err (.missingFile p)

/-- Model of `verify.verify_manifest` over the extracted regular files. -/
def verify_manifest (H : List Ch → List Ch) (files : List VFile) : VResult :=
  match findManifest files with
  | none => .err .manifestMissing
  | some mb =>
    let expected := parseLines (splitNl mb)
    match walkLoop H expected files [] with
    | .err e => .err e
    | .ok found => checkMissing found expected

/-! The composed pipeline: generate the manifest, pack, extract, verify
(`create_bundle` followed by `verify_bundle`'s manifest phase). -/

inductive BundleErr
  | packFailed (e : PackErr)
  | extractFailed (e : ExtractErr)
  | verifyFailed (e : VErr)
deriving DecidableEq, Repr

inductive BResult
  | ok
  | err (e : BundleErr)
deriving DecidableEq, Repr

/-- The extracted regular files, in the order the members were written. -/
def vfilesOfMembers (ms : List TarMember) : List VFile :=
  (ms.filter (fun m => m.type == TarType.reg)).map
    (fun m => { segs := pyParts m.name, content := m.content })

/-- Build a bundle from a staged tree (manifest generation then packing) and
verify it (safe extraction then strict manifest verification). -/
def buildAndVerify (H : List Ch → List Ch) (epoch : Int) (stage : List StagedEntry)
    (mMeta : FileMeta) : BResult :=
  let s2 := treeAfterManifest H stage mMeta
  let pr := packRun s2 epoch
  match pr.2 with
  | some pe => .err (.packFailed pe)
  | none =>
    let er := safe_extract pr.1
    match er.2 with
    | some xe => .err (.extractFailed xe)
    | none =>
      match verify_manifest H (vfilesOfMembers er.1) with
      | .ok => .ok
      | .err ve => .err (.verifyFailed ve)

/-! Auxiliary definitions for the statements. -/

/-- Ascending-key relation used to state sortedness of the builder's output:
`a` precedes `b` when `b`'s key is not strictly below `a`'s. -/
def leKey (k : α → List Ch) (a b : α) : Prop := strLt (k b) (k a) = false

/-- Erase the volatile filesystem metadata (ownership, names, modification
time) of a staged entry, keeping its content-determined part: path, kind,
bytes and permission bits. Two staging runs of the same logical tree on
different machines at different times agree exactly on `scrubEntry`. -/
def scrubMeta (m : FileMeta) : FileMeta :=
  { mtime := 0, uid := 0, gid := 0, uname := [], gname := [], mode := m.mode }

def scrubEntry (e : StagedEntry) : StagedEntry :=
  { e with meta := scrubMeta e.meta }

/-- Modelled from the spec: the traversal order claimed in section 4.3
("depth-first over lexicographically sorted path segments"), i.e. the
segment-wise lexicographic order on relative paths. To be compared with the
flat path-string order the builder actually uses. -/
def specSegLt : List (List Ch) → List (List Ch) → Bool
  | [], [] => false
  | [], _ :: _ => true
  | _ :: _, [] => false
  | a :: as, b :: bs => if strLt a b then true else if a = b then specSegLt as bs else false

/-- A well-formed relative path as the staging filesystem guarantees it:
nonempty, every segment nonempty and free of `/`. -/
def pathWF (segs : List (List Ch)) : Prop :=
  segs ≠ [] ∧ ∀ t ∈ segs, t ≠ [] ∧ 47 ∉ t

instance pathWFDecidable (segs : List (List Ch)) : Decidable (pathWF segs) := by
  unfold pathWF
  exact inferInstance

/-- A file that the verifier's walk traverses without failing: it is skipped
(`.DS_Store` name or the manifest's own path) or its path is expected with a
matching digest. Every file extracted from an untampered bundle satisfies
this. -/
def walkPass (H : List Ch → List Ch) (expected : DictC) (f : VFile) : Prop :=
  f.segs.getLast? = some dsName ∨ joinSegs f.segs = designatedStr ∨
    dictLookup expected (joinSegs f.segs) = some (H f.content)

instance walkPassDecidable (H : List Ch → List Ch) (expected : DictC) (f : VFile) :
    Decidable (walkPass H expected f) := by
  unfold walkPass
  exact inferInstance

/-! Concrete fixtures for counterexamples and witnesses. -/

/-- A concrete digest function standing in for SHA-256 in closed
evaluations; the claims hold for an arbitrary digest function `H`, and the
verifier recomputes digests with the same engine the builder used. -/
def H0 : List Ch → List Ch := fun _ => str2l "d0"

/-- Neutral filesystem metadata for fixtures. -/
def meta0 : FileMeta :=
  { mtime := 0, uid := 0, gid := 0, uname := [], gname := [], mode := 420 }

/-- Volatile filesystem metadata, as a second machine or time would give. -/
def meta1 : FileMeta :=
  { mtime := 987654, uid := 1000, gid := 50, uname := str2l "alice",
    gname := str2l "staff", mode := 420 }

/-- A staged tree as `create_bundle` stages it for the user tree
`{d/.DS_Store: "junk"}`: the user files under `artifacts/`, the generated
metadata files, and `manifest/inputs.json`. -/
def stageC1 : List StagedEntry :=
  [ { segs := [str2l "artifacts"], kind := .dir, meta := meta0 },
    { segs := [str2l "artifacts", str2l "d"], kind := .dir, meta := meta0 },
    { segs := [str2l "artifacts", str2l "d", str2l ".DS_Store"],
      kind := .file (some (str2l "junk")), meta := meta0 },
    { segs := [str2l "metadata"], kind := .dir, meta := meta0 },
    { segs := [str2l "metadata", str2l "metadata.json"],
      kind := .file (some (str2l "tool-meta")), meta := meta0 },
    { segs := [str2l "metadata", str2l "run.json"],
      kind := .file (some (str2l "run-meta")), meta := meta0 },
    { segs := [str2l "manifest"], kind := .dir, meta := meta0 },
    { segs := [str2l "manifest", str2l "inputs.json"],
      kind := .file (some (str2l "[]")), meta := meta0 } ]

/-- Two staged trees with identical content but different volatile metadata
and different enumeration order: two runs on different machines. -/
def stageRunA : List StagedEntry :=
  [ { segs := [str2l "b.txt"], kind := .file (some (str2l "beta")), meta := meta0 },
    { segs := [str2l "a.txt"], kind := .file (some (str2l "alpha")), meta := meta0 } ]

def stageRunB : List StagedEntry :=
  [ { segs := [str2l "a.txt"], kind := .file (some (str2l "alpha")), meta := meta1 },
    { segs := [str2l "b.txt"], kind := .file (some (str2l "beta")), meta := meta1 } ]

/-- An archive whose first member is a harmless regular file and whose second
member is a symlink. -/
def msC3 : List TarMember :=
  [ { name := str2l "ok.txt", type := .reg, content := str2l "fine", mtime := 0,
      uid := 0, gid := 0, uname := [], gname := [], mode := 420 },
    { name := str2l "evil", type := .sym, content := [], mtime := 0,
      uid := 0, gid := 0, uname := [], gname := [], mode := 420 } ]

/-- A valid extracted tree (manifest plus the one file it lists) with an
injected, unmanifested file named `.DS_Store`. -/
def filesC4 : List VFile :=
  [ { segs := designatedSegs, content := str2l "d0  a\n" },
    { segs := [str2l "a"], content := str2l "x" },
    { segs := [str2l ".DS_Store"], content := str2l "evil" } ]

/-- A valid extracted tree with an injected, unmanifested ordinary file. -/
def filesC4w : List VFile :=
  [ { segs := designatedSegs, content := str2l "d0  a\n" },
    { segs := [str2l "a"], content := str2l "x" } ]

def injectedC4w : VFile := { segs := [str2l "b"], content := str2l "y" }

/-- A tree containing a regular file `manifest/sub/sha256sum.txt`, which is
not the manifest's designated path. -/
def treeC5 : List StagedEntry :=
  [ { segs := [str2l "a.txt"], kind := .file (some (str2l "w")), meta := meta0 },
    { segs := [str2l "manifest"], kind := .dir, meta := meta0 },
    { segs := [str2l "manifest", str2l "sub"], kind := .dir, meta := meta0 },
    { segs := [str2l "manifest", str2l "sub", str2l "sha256sum.txt"],
      kind := .file (some (str2l "z")), meta := meta0 } ]

/-- A small tree for the C5 witness: two files given in unsorted order. -/
def treeC5w : List StagedEntry :=
  [ { segs := [str2l "b.txt"], kind := .file (some (str2l "B")), meta := meta0 },
    { segs := [str2l "a.txt"], kind := .file (some (str2l "A")), meta := meta0 } ]

/-- A staged tree with a file `a.txt` next to a directory `a` containing `b`:
the flat string sort and the segment-wise depth-first order disagree on it. -/
def stageC6 : List StagedEntry :=
  [ { segs := [str2l "a.txt"], kind := .file (some (str2l "1")), meta := meta0 },
    { segs := [str2l "a"], kind := .dir, meta := meta0 },
    { segs := [str2l "a", str2l "b"], kind := .file (some (str2l "2")), meta := meta0 } ]

def stageC7 : List StagedEntry :=
  [ { segs := [str2l "f"], kind := .file (some (str2l "x")), meta := meta0 } ]

/-- A staged tree whose second file (in sorted order) is unreadable. -/
def stageC8 : List StagedEntry :=
  [ { segs := [str2l "a"], kind := .file (some (str2l "x")), meta := meta0 },
    { segs := [str2l "b"], kind := .file none, meta := meta0 } ]

/-- The archive built from `stageC7` with reproducibility timestamp 5. -/
def arch7 : Archive :=
  { gzipMtime := 0, gzipFname := none,
    members := [{ name := str2l "f", type := .reg, content := str2l "x", mtime := 5,
                  uid := 0, gid := 0, uname := [], gname := [], mode := 420 }] }

/-! Properties of the string order and of the sort. -/

theorem strLt_irrefl (l : List Ch) : strLt l l = false := by
  induction l with
  | nil => rfl
  | cons a as ih => simp [strLt, ih]

theorem strLt_trans : ∀ (a b c : List Ch),
    strLt a b = true → strLt b c = true → strLt a c = true := by
  intro a
  induction a with
  | nil =>
    intro b c hab hbc
    cases b with
    | nil => simp [strLt] at hab
    | cons y ys =>
      cases c with
      | nil => simp [strLt] at hbc
      | cons z zs => simp [strLt]
  | cons x xs ih =>
    intro b c hab hbc
    cases b with
    | nil => simp [strLt] at hab
    | cons y ys =>
      cases c with
      | nil => simp [strLt] at hbc
      | cons z zs =>
        simp only [strLt] at hab hbc ⊢
        rcases Nat.lt_trichotomy x y with hxy | hxy | hxy
        · rcases Nat.lt_trichotomy y z with hyz | hyz | hyz
          · simp [Nat.lt_trans hxy hyz]
          · subst hyz; simp [hxy]
          · simp [Nat.lt_asymm hyz, Nat.ne_of_gt hyz] at hbc
        · subst hxy
          simp only [Nat.lt_irrefl, if_false, if_pos rfl] at hab
          rcases Nat.lt_trichotomy x z with hxz | hxz | hxz
          · simp [hxz]
          · subst hxz
            simp only [Nat.lt_irrefl, if_false, if_pos rfl] at hbc ⊢
            exact ih _ _ hab hbc
          · simp [Nat.lt_asymm hxz, Nat.ne_of_gt hxz] at hbc
        · simp [Nat.lt_asymm hxy, Nat.ne_of_gt hxy] at hab

theorem strLt_eq_of_not : ∀ (a b : List Ch),
    strLt a b = false → strLt b a = false → a = b := by
  intro a
  induction a with
  | nil =>
    intro b hab _
    cases b with
    | nil => rfl
    | cons y ys => simp [strLt] at hab
  | cons x xs ih =>
    intro b hab hba
    cases b with
    | nil => simp [strLt] at hba
    | cons y ys =>
      simp only [strLt] at hab hba
      rcases Nat.lt_trichotomy x y with h | h | h
      · simp [h] at hab
      · subst h
        simp only [Nat.lt_irrefl, if_false, if_pos rfl] at hab hba
        rw [ih ys hab hba]
      · simp [h] at hba

theorem strLt_asymm (a b : List Ch) (h : strLt a b = true) : strLt b a = false := by
  cases hba : strLt b a with
  | false => rfl
  | true =>
    have h2 := strLt_trans a b a h hba
    rw [strLt_irrefl] at h2
    simp at h2

theorem insertSorted_perm (k : α → List Ch) (x : α) :
    ∀ l : List α, (insertSorted k x l).Perm (x :: l) := by
  intro l
  induction l with
  | nil => exact List.Perm.refl _
  | cons y ys ih =>
    by_cases h : strLt (k x) (k y) = true
    · simp only [insertSorted]
      rw [if_pos h]
    · simp only [insertSorted]
      rw [if_neg h]
      exact (ih.cons y).trans (List.Perm.swap x y ys)

theorem sortAsc_perm (k : α → List Ch) : ∀ l : List α, (sortAsc k l).Perm l := by
  intro l
  induction l with
  | nil => exact List.Perm.refl _
  | cons a l ih =>
    have h1 : sortAsc k (a :: l) = insertSorted k a (sortAsc k l) := rfl
    rw [h1]
    exact (insertSorted_perm k a _).trans (ih.cons a)

theorem insertSorted_pairwise (k : α → List Ch) (x : α) :
    ∀ l : List α, l.Pairwise (leKey k) → (insertSorted k x l).Pairwise (leKey k) := by
  intro l
  induction l with
  | nil => intro _; simp [insertSorted, leKey]
  | cons y ys ih =>
    intro hp
    rw [List.pairwise_cons] at hp
    obtain ⟨hy, hys⟩ := hp
    by_cases h : strLt (k x) (k y) = true
    · simp only [insertSorted]
      rw [if_pos h, List.pairwise_cons]
      constructor
      · intro z hz
        rcases List.mem_cons.mp hz with rfl | hz'
        · exact strLt_asymm _ _ h
        · cases hzx : strLt (k z) (k x) with
          | false => exact hzx
          | true =>
            have h1 := strLt_trans _ _ _ hzx h
            have h2 := hy z hz'
            rw [leKey] at h2
            rw [h2] at h1
            simp at h1
      · rw [List.pairwise_cons]
        exact ⟨hy, hys⟩
    · have h' : strLt (k x) (k y) = false := by
        cases hh : strLt (k x) (k y) with
        | false => rfl
        | true => exact absurd hh h
      simp only [insertSorted]
      rw [if_neg h, List.pairwise_cons]
      constructor
      · intro z hz
        have hmem := (insertSorted_perm k x ys).mem_iff.mp hz
        rcases List.mem_cons.mp hmem with rfl | hz'
        · exact h'
        · exact hy z hz'
      · exact ih hys

theorem sortAsc_pairwise (k : α → List Ch) :
    ∀ l : List α, (sortAsc k l).Pairwise (leKey k) := by
  intro l
  induction l with
  | nil => exact List.Pairwise.nil
  | cons a l ih => exact insertSorted_pairwise k a _ ih

theorem sorted_perm_unique (k : α → List Ch) :
    ∀ (l1 l2 : List α), l1.Perm l2 → l1.Pairwise (leKey k) → l2.Pairwise (leKey k) →
      (l1.map k).Nodup → l1 = l2 := by
  intro l1
  induction l1 with
  | nil =>
    intro l2 hp _ _ _
    exact (hp.symm.eq_nil).symm
  | cons a t1 ih =>
    intro l2 hp hs1 hs2 hnd
    cases l2 with
    | nil => exact absurd hp.eq_nil (by simp)
    | cons b t2 =>
      have hnd1 : (k a :: t1.map k).Nodup := by simpa using hnd
      have hb1 : b ∈ a :: t1 := hp.mem_iff.mpr (List.mem_cons_self b t2)
      have hab : a = b := by
        rcases List.mem_cons.mp hb1 with h | h
        · exact h.symm
        · have ha2 : a ∈ b :: t2 := hp.mem_iff.mp (List.mem_cons_self a t1)
          rcases List.mem_cons.mp ha2 with h' | h'
          · exact h'
          · have h1 : strLt (k b) (k a) = false := (List.pairwise_cons.mp hs1).1 b h
            have h2 : strLt (k a) (k b) = false := (List.pairwise_cons.mp hs2).1 a h'
            have hk : k a = k b := strLt_eq_of_not _ _ h2 h1
            have hmem : k a ∈ t1.map k := hk ▸ List.mem_map_of_mem k h
            exact absurd hmem (List.nodup_cons.mp hnd1).1
      subst hab
      have ht : t1.Perm t2 := hp.cons_inv
      have htl := ih t2 ht (List.pairwise_cons.mp hs1).2 (List.pairwise_cons.mp hs2).2
        (List.nodup_cons.mp hnd1).2
      rw [htl]

theorem insertSorted_map (f : α → β) (k : β → List Ch) (x : α) :
    ∀ l : List α, insertSorted k (f x) (l.map f) = (insertSorted (fun a => k (f a)) x l).map f := by
  intro l
  induction l with
  | nil => rfl
  | cons y ys ih =>
    simp only [List.map_cons, insertSorted]
    by_cases h : strLt (k (f x)) (k (f y)) = true
    · rw [if_pos h, if_pos h]
      simp
    · rw [if_neg h, if_neg h]
      simp [ih]

theorem sortAsc_map (f : α → β) (k : β → List Ch) :
    ∀ l : List α, sortAsc k (l.map f) = (sortAsc (fun a => k (f a)) l).map f := by
  intro l
  induction l with
  | nil => rfl
  | cons a l ih =>
    show insertSorted k (f a) (sortAsc k (l.map f)) = _
    rw [ih, insertSorted_map]
    rfl

/-! Properties of the builder's tar loop. -/

theorem addLoop_scrub (ep : Int) : ∀ l : List StagedEntry,
    addLoop ep (l.map scrubEntry) = addLoop ep l := by
  intro l
  induction l with
  | nil => rfl
  | cons e l ih =>
    obtain ⟨segs, kind, meta⟩ := e
    cases kind with
    | dir =>
      simp only [List.map_cons, addLoop, scrubEntry]
      by_cases h : dsSkip ⟨segs, .dir, meta⟩ = true
      · have h2 : dsSkip ⟨segs, .dir, scrubMeta meta⟩ = true := h
        rw [if_pos h2, if_pos h, ih]
      · have h2 : ¬dsSkip ⟨segs, .dir, scrubMeta meta⟩ = true := h
        rw [if_neg h2, if_neg h, ih]
        rfl
    | file c =>
      cases c with
      | none =>
        simp only [List.map_cons, addLoop, scrubEntry]
        by_cases h : dsSkip ⟨segs, .file none, meta⟩ = true
        · have h2 : dsSkip ⟨segs, .file none, scrubMeta meta⟩ = true := h
          rw [if_pos h2, if_pos h, ih]
        · have h2 : ¬dsSkip ⟨segs, .file none, scrubMeta meta⟩ = true := h
          rw [if_neg h2, if_neg h]
      | some b =>
        simp only [List.map_cons, addLoop, scrubEntry]
        by_cases h : dsSkip ⟨segs, .file (some b), meta⟩ = true
        · have h2 : dsSkip ⟨segs, .file (some b), scrubMeta meta⟩ = true := h
          rw [if_pos h2, if_pos h, ih]
        · have h2 : ¬dsSkip ⟨segs, .file (some b), scrubMeta meta⟩ = true := h
          rw [if_neg h2, if_neg h, ih]
          rfl

theorem stageSorted_scrub (s : List StagedEntry) :
    stageSorted (s.map scrubEntry) = (stageSorted s).map scrubEntry := by
  unfold stageSorted
  rw [sortAsc_map scrubEntry entryKey s]
  rw [show (fun a : StagedEntry => entryKey (scrubEntry a)) = entryKey from
    funext fun a => rfl]

theorem addLoop_span (ep : Int) : ∀ l : List StagedEntry,
    addLoop ep l =
      (((l.filter (fun e => !dsSkip e)).takeWhile readableB).filterMap (mkMember ep),
       ((l.filter (fun e => !dsSkip e)).dropWhile readableB).head?.map
         (fun e => PackErr.readError (joinSegs e.segs))) := by
  intro l
  induction l with
  | nil => rfl
  | cons e l ih =>
    by_cases h : dsSkip e = true
    · simp only [addLoop, List.filter_cons, h, Bool.not_true, if_pos h]
      rw [ih]
      rfl
    · have h' : dsSkip e = false := by simpa using h
      obtain ⟨segs, kind, meta⟩ := e
      cases kind with
      | dir =>
        simp [addLoop, h, h', List.filter_cons, List.takeWhile_cons, List.dropWhile_cons,
          readableB, mkMember, ih]
      | file c =>
        cases c with
        | none =>
          simp [addLoop, h, h', List.filter_cons, List.takeWhile_cons, List.dropWhile_cons,
            readableB]
        | some b =>
          simp [addLoop, h, h', List.filter_cons, List.takeWhile_cons, List.dropWhile_cons,
            readableB, mkMember, ih]

theorem packRun_span (s : List StagedEntry) (ep : Int) :
    packRun s ep =
      ((((stageSorted s).filter (fun e => !dsSkip e)).takeWhile readableB).filterMap
         (mkMember ep),
       (((stageSorted s).filter (fun e => !dsSkip e)).dropWhile readableB).head?.map
         (fun e => PackErr.readError (joinSegs e.segs))) :=
  addLoop_span ep (stageSorted s)

theorem addLoop_mtime (ep : Int) : ∀ l : List StagedEntry,
    ∀ m ∈ (addLoop ep l).1, m.mtime = ep := by
  intro l
  induction l with
  | nil => intro m hm; simp [addLoop] at hm
  | cons e l ih =>
    intro m hm
    by_cases h : dsSkip e = true
    · rw [show addLoop ep (e :: l) = addLoop ep l by simp only [addLoop, if_pos h]] at hm
      exact ih m hm
    · obtain ⟨segs, kind, meta⟩ := e
      cases kind with
      | dir =>
        simp only [addLoop, if_neg h] at hm
        rcases List.mem_cons.mp hm with rfl | hm'
        · rfl
        · exact ih m hm'
      | file c =>
        cases c with
        | none => simp only [addLoop, if_neg h] at hm; simp at hm
        | some b =>
          simp only [addLoop, if_neg h] at hm
          rcases List.mem_cons.mp hm with rfl | hm'
          · rfl
          · exact ih m hm'

theorem mkMember_name (ep : Int) (e : StagedEntry) (m : TarMember)
    (h : mkMember ep e = some m) : m.name = entryKey e := by
  obtain ⟨segs, kind, meta⟩ := e
  cases kind with
  | dir =>
    simp only [mkMember] at h
    rw [← Option.some_inj.mp h]
    rfl
  | file c =>
    cases c with
    | none => simp [mkMember] at h
    | some b =>
      simp only [mkMember] at h
      rw [← Option.some_inj.mp h]
      rfl

theorem filterMap_readable_names (ep : Int) : ∀ L : List StagedEntry,
    (∀ e ∈ L, readableB e = true) →
    (L.filterMap (mkMember ep)).map TarMember.name = L.map entryKey := by
  intro L
  induction L with
  | nil => intro _; rfl
  | cons e L ih =>
    intro hr
    have he := hr e (List.mem_cons_self e L)
    have hL : ∀ e' ∈ L, readableB e' = true := fun e' h' => hr e' (List.mem_cons_of_mem e h')
    obtain ⟨segs, kind, meta⟩ := e
    cases kind with
    | dir =>
      simp only [List.filterMap_cons, mkMember, List.map_cons]
      rw [ih hL]
      rfl
    | file c =>
      cases c with
      | none => simp [readableB] at he
      | some b =>
        simp only [List.filterMap_cons, mkMember, List.map_cons]
        rw [ih hL]
        rfl

theorem mem_takeWhileB (p : α → Bool) : ∀ (l : List α) (a : α),
    a ∈ l.takeWhile p → p a = true := by
  intro l
  induction l with
  | nil => intro a ha; simp [List.takeWhile] at ha
  | cons x xs ih =>
    intro a ha
    by_cases hx : p x = true
    · rw [List.takeWhile_cons, if_pos hx] at ha
      rcases List.mem_cons.mp ha with rfl | ha'
      · exact hx
      · exact ih a ha'
    · rw [List.takeWhile_cons, if_neg hx] at ha
      simp at ha

theorem packRun_names (s : List StagedEntry) (ep : Int) :
    (packRun s ep).1.map TarMember.name =
      (((stageSorted s).filter (fun e => !dsSkip e)).takeWhile readableB).map entryKey := by
  have h := congrArg Prod.fst (packRun_span s ep)
  rw [h]
  exact filterMap_readable_names ep _ (fun e he => mem_takeWhileB readableB _ e he)

theorem packRun_names_pairwise (s : List StagedEntry) (ep : Int) :
    ((packRun s ep).1.map TarMember.name).Pairwise (fun a b => strLt b a = false) := by
  rw [packRun_names]
  have hs : (stageSorted s).Pairwise (leKey entryKey) := sortAsc_pairwise entryKey s
  have h1 : ((stageSorted s).filter (fun e => !dsSkip e)).Pairwise (leKey entryKey) :=
    hs.sublist (List.filter_sublist _)
  have h2 : (((stageSorted s).filter (fun e => !dsSkip e)).takeWhile readableB).Pairwise
      (leKey entryKey) :=
    h1.sublist (List.takeWhile_sublist _)
  rw [List.pairwise_map]
  exact h2

/-! Properties of the safe extractor. -/

theorem safe_extract_span : ∀ ms : List TarMember,
    safe_extract ms =
      (ms.takeWhile (fun m => (memberCheck m).isNone),
       (ms.dropWhile (fun m => (memberCheck m).isNone)).head?.bind memberCheck) := by
  intro ms
  induction ms with
  | nil => rfl
  | cons m rest ih =>
    by_cases h1 : pyIsAbs m.name = true
    · simp [safe_extract, memberCheck, h1, List.takeWhile_cons, List.dropWhile_cons]
    · by_cases h2 : dotdotSeg ∈ pyParts m.name
      · simp [safe_extract, memberCheck, h1, h2, List.takeWhile_cons, List.dropWhile_cons]
      · by_cases h3 : m.type = TarType.sym ∨ m.type = TarType.lnk
        · simp [safe_extract, memberCheck, h1, h2, h3, List.takeWhile_cons,
            List.dropWhile_cons]
        · simp [safe_extract, memberCheck, h1, h2, h3, List.takeWhile_cons,
            List.dropWhile_cons, ih]

/-! Properties of the dict model. -/

theorem dictLookup_insert_self : ∀ (d : DictC) (k v : List Ch),
    dictLookup (dictInsert d k v) k = some v := by
  intro d
  induction d with
  | nil => intro k v; simp [dictInsert, dictLookup]
  | cons kv rest ih =>
    intro k v
    obtain ⟨k1, v1⟩ := kv
    by_cases h : k1 = k
    · simp [dictInsert, dictLookup, h]
    · simp [dictInsert, dictLookup, h, ih]

theorem dictLookup_insert_ne : ∀ (d : DictC) (k' k v : List Ch), k' ≠ k →
    dictLookup (dictInsert d k' v) k = dictLookup d k := by
  intro d
  induction d with
  | nil => intro k' k v h; simp [dictInsert, dictLookup, h]
  | cons kv rest ih =>
    intro k' k v h
    obtain ⟨k1, v1⟩ := kv
    by_cases h1 : k1 = k'
    · subst h1
      simp [dictInsert, dictLookup, h]
    · simp only [dictInsert, if_neg h1]
      by_cases h2 : k1 = k
      · simp [dictLookup, h2]
      · simp [dictLookup, h2, ih _ _ v h]

theorem dictKeys_append (d1 d2 : DictC) :
    dictKeys (d1 ++ d2) = dictKeys d1 ++ dictKeys d2 := by
  simp [dictKeys]

theorem dictInsert_fresh : ∀ (d : DictC) (k v : List Ch), k ∉ dictKeys d →
    dictInsert d k v = d ++ [(k, v)] := by
  intro d
  induction d with
  | nil => intro k v _; rfl
  | cons kv rest ih =>
    intro k v h
    obtain ⟨k1, v1⟩ := kv
    have hk1 : k1 ≠ k := by
      intro he
      exact h (by simp [dictKeys, he])
    have hrest : k ∉ dictKeys rest := by
      intro he
      exact h (by simp [dictKeys] at he ⊢; exact Or.inr he)
    simp [dictInsert, hk1, ih _ v hrest]

theorem dict_build (g : List Ch × List Ch → List Ch) :
    ∀ (P : List (List Ch × List Ch)) (acc : DictC),
      (P.map Prod.fst).Nodup → (∀ kv ∈ P, kv.1 ∉ dictKeys acc) →
      P.foldl (fun d kv => dictInsert d kv.1 (g kv)) acc =
        acc ++ P.map (fun kv => (kv.1, g kv)) := by
  intro P
  induction P with
  | nil => intro acc _ _; simp
  | cons kv P ih =>
    intro acc hnd hdisj
    obtain ⟨k, v⟩ := kv
    have hk : k ∉ dictKeys acc := hdisj (k, v) (List.mem_cons_self _ _)
    rw [List.foldl_cons, dictInsert_fresh acc k (g (k, v)) hk]
    have hnd' : (P.map Prod.fst).Nodup := (List.nodup_cons.mp (by simpa using hnd)).2
    have hknot : k ∉ P.map Prod.fst := (List.nodup_cons.mp (by simpa using hnd)).1
    have hdisj' : ∀ kv' ∈ P, kv'.1 ∉ dictKeys (acc ++ [(k, g (k, v))]) := by
      intro kv' hkv'
      rw [dictKeys_append]
      intro hmem
      rcases List.mem_append.mp hmem with hm | hm
      · exact hdisj kv' (List.mem_cons_of_mem _ hkv') hm
      · simp [dictKeys] at hm
        exact hknot (hm ▸ List.mem_map_of_mem Prod.fst hkv')
    rw [ih (acc ++ [(k, g (k, v))]) hnd' hdisj']
    simp

theorem assoc_lookup_of_mem : ∀ (d : DictC) (k v : List Ch),
    (d.map Prod.fst).Nodup → (k, v) ∈ d → dictLookup d k = some v := by
  intro d
  induction d with
  | nil => intro k v _ hm; simp at hm
  | cons kv rest ih =>
    intro k v hnd hm
    obtain ⟨k1, v1⟩ := kv
    rcases List.mem_cons.mp hm with he | hm'
    · injection he with h1 h2
      subst h1
      subst h2
      simp [dictLookup]
    · have hk1 : k1 ≠ k := by
        intro he
        subst he
        have hmem : k1 ∈ rest.map Prod.fst := List.mem_map_of_mem Prod.fst hm'
        exact (List.nodup_cons.mp (by simpa using hnd)).1 hmem
      simp only [dictLookup, if_neg hk1]
      exact ih k v (List.nodup_cons.mp (by simpa using hnd)).2 hm'

/-! Properties of the verifier's walk. -/

theorem walkLoop_pass_append (H : List Ch → List Ch) (exp : DictC) :
    ∀ (pre rest : List VFile) (found : List (List Ch)),
      (∀ f ∈ pre, walkPass H exp f) →
      ∃ found2, walkLoop H exp (pre ++ rest) found = walkLoop H exp rest found2 := by
  intro pre
  induction pre with
  | nil => intro rest found _; exact ⟨found, rfl⟩
  | cons f pre ih =>
    intro rest found hp
    have hf := hp f (List.mem_cons_self f pre)
    have hrest : ∀ g ∈ pre, walkPass H exp g := fun g hg => hp g (List.mem_cons_of_mem f hg)
    by_cases h1 : f.segs.getLast? = some dsName
    · rcases ih rest found hrest with ⟨f2, hf2⟩
      refine ⟨f2, ?_⟩
      rw [List.cons_append]
      simp only [walkLoop, if_pos h1]
      exact hf2
    · by_cases h2 : joinSegs f.segs = designatedStr
      · rcases ih rest found hrest with ⟨f2, hf2⟩
        refine ⟨f2, ?_⟩
        rw [List.cons_append]
        simp only [walkLoop, if_neg h1, if_pos h2]
        exact hf2
      · rcases hf with hf | hf | hf
        · exact absurd hf h1
        · exact absurd hf h2
        · rcases ih rest (joinSegs f.segs :: found) hrest with ⟨f2, hf2⟩
          refine ⟨f2, ?_⟩
          rw [List.cons_append]
          simp only [walkLoop, if_neg h1, if_neg h2, hf, if_pos rfl]
          exact hf2

/-! Injectivity of path joining on well-formed paths. -/

theorem append_slash_inj : ∀ (x y u v : List Ch), 47 ∉ x → 47 ∉ y →
    x ++ 47 :: u = y ++ 47 :: v → x = y ∧ u = v := by
  intro x
  induction x with
  | nil =>
    intro y u v _ hy h
    cases y with
    | nil =>
      simp only [List.nil_append] at h
      exact ⟨rfl, (List.cons.injEq .. ▸ h).2⟩
    | cons c ys =>
      simp only [List.nil_append, List.cons_append] at h
      have hc := (List.cons.injEq .. ▸ h).1
      exact absurd (hc ▸ List.mem_cons_self c ys) hy
  | cons a xs ih =>
    intro y u v hx hy h
    cases y with
    | nil =>
      simp only [List.cons_append, List.nil_append] at h
      have hc := (List.cons.injEq .. ▸ h).1
      exact absurd (hc.symm ▸ List.mem_cons_self a xs) hx
    | cons b ys =>
      simp only [List.cons_append] at h
      have hc := (List.cons.injEq .. ▸ h).1
      have ht := (List.cons.injEq .. ▸ h).2
      have hx' : 47 ∉ xs := fun hm => hx (List.mem_cons_of_mem a hm)
      have hy' : 47 ∉ ys := fun hm => hy (List.mem_cons_of_mem b hm)
      rcases ih ys u v hx' hy' ht with ⟨h1, h2⟩
      exact ⟨by rw [hc, h1], h2⟩

theorem joinSegs_mem_slash (y : List Ch) (w : List Ch) : 47 ∈ y ++ 47 :: w := by
  exact List.mem_append.mpr (Or.inr (List.mem_cons_self 47 w))

theorem joinSegs_inj : ∀ (a b : List (List Ch)), pathWF a → pathWF b →
    joinSegs a = joinSegs b → a = b := by
  intro a
  induction a with
  | nil => intro b ha _ _; exact absurd rfl ha.1
  | cons x xs ih =>
    intro b ha hb h
    cases b with
    | nil => exact absurd rfl hb.1
    | cons y ys =>
      have hxwf := ha.2 x (List.mem_cons_self x xs)
      have hywf := hb.2 y (List.mem_cons_self y ys)
      cases xs with
      | nil =>
        cases ys with
        | nil =>
          simp only [joinSegs] at h
          rw [h]
        | cons z zs =>
          simp only [joinSegs] at h
          exact absurd (h ▸ joinSegs_mem_slash y (joinSegs (z :: zs))) hxwf.2
      | cons w ws =>
        cases ys with
        | nil =>
          simp only [joinSegs] at h
          exact absurd (h.symm ▸ joinSegs_mem_slash x (joinSegs (w :: ws))) hywf.2
        | cons z zs =>
          simp only [joinSegs] at h
          rcases append_slash_inj x y _ _ hxwf.2 hywf.2 h with ⟨h1, h2⟩
          have hwfxs : pathWF (w :: ws) :=
            ⟨by simp, fun t ht => ha.2 t (List.mem_cons_of_mem x ht)⟩
          have hwfys : pathWF (z :: zs) :=
            ⟨by simp, fun t ht => hb.2 t (List.mem_cons_of_mem y ht)⟩
          rw [h1, ih (z :: zs) hwfxs hwfys h2]

/-! Properties of manifest parsing. -/

theorem parseLines_skip (pre post : List (List Ch)) (bad : List Ch)
    (h : parseLine bad = none) :
    parseLines (pre ++ bad :: post) = parseLines (pre ++ post) := by
  unfold parseLines
  rw [List.foldl_append, List.foldl_append, List.foldl_cons]
  have hstep : parseStep (List.foldl parseStep [] pre) bad = List.foldl parseStep [] pre := by
    simp [parseStep, h]
  rw [hstep]

theorem untouched_lookup (p : List Ch) : ∀ (post : List (List Ch)) (D : DictC),
    (∀ l ∈ post, ∀ pr, parseLine l = some pr → pr.2 ≠ p) →
    dictLookup (post.foldl parseStep D) p = dictLookup D p := by
  intro post
  induction post with
  | nil => intro D _; rfl
  | cons l post ih =>
    intro D hp
    rw [List.foldl_cons]
    have hrest : ∀ l' ∈ post, ∀ pr, parseLine l' = some pr → pr.2 ≠ p :=
      fun l' h' => hp l' (List.mem_cons_of_mem l h')
    rw [ih (parseStep D l) hrest]
    cases hl : parseLine l with
    | none => simp [parseStep, hl]
    | some pr =>
      simp only [parseStep, hl]
      exact dictLookup_insert_ne D pr.2 p pr.1 (hp l (List.mem_cons_self l post) pr hl)

theorem parseLines_last_wins (pre : List (List Ch)) (L : List Ch) (h p : List Ch)
    (post : List (List Ch)) (hL : parseLine L = some (h, p))
    (hpost : ∀ l ∈ post, ∀ pr, parseLine l = some pr → pr.2 ≠ p) :
    dictLookup (parseLines (pre ++ L :: post)) p = some h := by
  unfold parseLines
  rw [List.foldl_append, List.foldl_cons]
  rw [untouched_lookup p post _ hpost]
  simp only [parseStep, hL]
  exact dictLookup_insert_self _ p h

/-! Properties of the manifest generator. -/

theorem inclPairs_mem {s : List StagedEntry} {kv : List Ch × List Ch}
    (h : kv ∈ inclPairs s) :
    ∃ e ∈ s, ∃ c, e.kind = .file (some c) ∧ manifestExcluded e.segs = false ∧
      kv = (joinSegs e.segs, c) := by
  unfold inclPairs at h
  rcases List.mem_filterMap.mp h with ⟨e, he, hf⟩
  have hes : e ∈ s := (sortAsc_perm entryKey s).mem_iff.mp he
  obtain ⟨segs, kind, meta⟩ := e
  cases kind with
  | dir => simp at hf
  | file c =>
    cases c with
    | none => simp at hf
    | some b =>
      by_cases hex : manifestExcluded segs = true
      · simp [hex] at hf
      · have hex' : manifestExcluded segs = false := by simpa using hex
        simp only [hex', Bool.false_eq_true, if_false] at hf
        refine ⟨⟨segs, .file (some b), meta⟩, hes, b, rfl, hex', ?_⟩
        exact (Option.some_inj.mp hf).symm

theorem manifestDict_eq (H : List Ch → List Ch) (s : List StagedEntry)
    (hnd : ((inclPairs s).map Prod.fst).Nodup) :
    manifestDict H s = (inclPairs s).map (fun kv => (kv.1, H kv.2)) := by
  unfold manifestDict
  have h := dict_build (fun kv => H kv.2) (inclPairs s) [] hnd
    (by intro kv _; simp [dictKeys])
  simpa using h

theorem manifestDict_keys (H : List Ch → List Ch) (s : List StagedEntry)
    (hnd : ((inclPairs s).map Prod.fst).Nodup) :
    dictKeys (manifestDict H s) = (inclPairs s).map Prod.fst := by
  rw [manifestDict_eq H s hnd]
  simp [dictKeys, List.map_map]

/-! Claim theorems. -/

/-- Claim C1 (code bug): the round-trip property fails on the code. For the
user tree `{d/.DS_Store: "junk"}`, staged as `stageC1`, building the bundle
(manifest generation, then packing) and verifying it reports a missing-file
failure for `artifacts/d/.DS_Store` instead of success: `generate_manifest`
lists the `.DS_Store` file in the manifest, but the builder's tar loop skips
`.DS_Store` names, so the set of archived regular files differs from the set
of manifested paths and verification fails. -/
theorem c1_ds_store_round_trip_failure :
    buildAndVerify H0 0 stageC1 meta0 =
      .err (.verifyFailed (.missingFile (str2l "artifacts/d/.DS_Store")))
    ∧ (str2l "artifacts/d/.DS_Store") ∈ dictKeys (manifestDict H0 stageC1)
    ∧ (str2l "artifacts/d/.DS_Store") ∉
        (packRun (treeAfterManifest H0 stageC1 meta0) 0).1.map TarMember.name := by
  decide

/-- Claim C2: the archive builder is deterministic. Two staging runs of the
same logical content (identical up to the volatile filesystem metadata erased
by `scrubEntry`: modification times, uid/gid, owner/group names) enumerated
in any order produce the same member stream and the same archive, for any
fixed reproducibility timestamp; hence the serialized bytes and the outer
digest coincide. -/
theorem c2_deterministic_archive (s1 s2 : List StagedEntry) (ep : Int)
    (hperm : (s1.map scrubEntry).Perm (s2.map scrubEntry))
    (hnd : (s1.map entryKey).Nodup) :
    packRun s1 ep = packRun s2 ep ∧ create_archive s1 ep = create_archive s2 ep := by
  have hsorted : stageSorted (s1.map scrubEntry) = stageSorted (s2.map scrubEntry) := by
    apply sorted_perm_unique entryKey
    · exact ((sortAsc_perm entryKey _).trans hperm).trans (sortAsc_perm entryKey _).symm
    · exact sortAsc_pairwise entryKey _
    · exact sortAsc_pairwise entryKey _
    · have hp : ((stageSorted (s1.map scrubEntry)).map entryKey).Perm
          ((s1.map scrubEntry).map entryKey) :=
        (sortAsc_perm entryKey _).map entryKey
      rw [hp.nodup_iff, List.map_map]
      rw [show (entryKey ∘ scrubEntry) = entryKey from funext fun a => rfl]
      exact hnd
  have hpack : packRun s1 ep = packRun s2 ep := by
    unfold packRun
    rw [← addLoop_scrub ep (stageSorted s1), ← stageSorted_scrub s1, hsorted,
      stageSorted_scrub s2, addLoop_scrub ep (stageSorted s2)]
  refine ⟨hpack, ?_⟩
  unfold create_archive
  rw [hpack]

theorem c2_deterministic_archive_witness : packRun stageRunA 7 = packRun stageRunB 7 :=
  (c2_deterministic_archive stageRunA stageRunB 7 (by decide) (by decide)).1

/-- Claim C3 (counterexample): extraction does not abort before any file is
written when the unsafe member is not first. On an archive whose first member
is a harmless regular file and whose second is a symlink, `safe_extract`
aborts with the link error but has already written the first file into the
destination. -/
theorem c3_counterexample_files_written_before_abort :
    safe_extract msC3 =
      ([{ name := str2l "ok.txt", type := .reg, content := str2l "fine", mtime := 0,
          uid := 0, gid := 0, uname := [], gname := [], mode := 420 }],
       some (.linkMember (str2l "evil")))
    ∧ (safe_extract msC3).1 ≠ [] := by
  decide

/-- Claim C3 (amended): `safe_extract` checks each member against the three
rules (absolute path, `..` segment, link type, in that order) before writing
that member, and aborts at the first unsafe member with an error identifying
it and the triggered rule; the safe members preceding it have already been
extracted into the destination, so a partial extraction remains whenever the
first unsafe member is not the first member. -/
theorem c3_extraction_stops_at_first_offender (ms : List TarMember) :
    safe_extract ms =
      (ms.takeWhile (fun m => (memberCheck m).isNone),
       (ms.dropWhile (fun m => (memberCheck m).isNone)).head?.bind memberCheck) :=
  safe_extract_span ms

/-- Claim C4 (counterexample): an injected unmanifested file is not always
detected. Injecting a file named `.DS_Store` into an otherwise valid
extracted tree leaves verification reporting success, because the verifier's
walk skips `.DS_Store` names. -/
theorem c4_counterexample_ds_store_injection :
    verify_manifest H0 filesC4 = .ok
    ∧ dictLookup (parseLines (splitNl (str2l "d0  a\n"))) (str2l ".DS_Store") = none := by
  decide

/-- Claim C4 (amended): injecting a regular file whose base name is not
`.DS_Store` and whose path is neither the manifest's own path nor listed in
the embedded manifest makes verification fail with an unexpected-file error
naming that path, wherever the file sits in the walk order, provided the
files walked before it pass their checks. -/
theorem c4_unexpected_file_failure (H : List Ch → List Ch)
    (pre post : List VFile) (p : VFile) (mb : List Ch)
    (hm : findManifest (pre ++ p :: post) = some mb)
    (hpre : ∀ f ∈ pre, walkPass H (parseLines (splitNl mb)) f)
    (h1 : ¬ p.segs.getLast? = some dsName)
    (h2 : ¬ joinSegs p.segs = designatedStr)
    (h3 : dictLookup (parseLines (splitNl mb)) (joinSegs p.segs) = none) :
    verify_manifest H (pre ++ p :: post) = .err (.unexpectedFile (joinSegs p.segs)) := by
  have hv : verify_manifest H (pre ++ p :: post) =
      (match walkLoop H (parseLines (splitNl mb)) (pre ++ p :: post) [] with
       | WalkRes.err e => VResult.err e
       | WalkRes.ok found => checkMissing found (parseLines (splitNl mb))) := by
    unfold verify_manifest
    rw [hm]
  rcases walkLoop_pass_append H (parseLines (splitNl mb)) pre (p :: post) [] hpre with
    ⟨f2, hf2⟩
  rw [hv, hf2]
  have hw : walkLoop H (parseLines (splitNl mb)) (p :: post) f2 =
      .err (.unexpectedFile (joinSegs p.segs)) := by
    simp only [walkLoop, if_neg h1, if_neg h2, h3]
  rw [hw]

theorem c4_unexpected_file_failure_witness :
    verify_manifest H0 (filesC4w ++ injectedC4w :: []) =
      .err (.unexpectedFile (joinSegs injectedC4w.segs)) :=
  c4_unexpected_file_failure H0 filesC4w [] injectedC4w (str2l "d0  a\n")
    (by decide) (by decide) (by decide) (by decide) (by decide)

/-- Claim C5 (counterexample): the manifest's exclusion rule drops more than
the manifest's own designated path. In `treeC5` the regular file
`manifest/sub/sha256sum.txt` is neither the designated path nor a
`.DS_Store`, yet `generate_manifest` emits no entry for it, because the skip
condition only compares the first segment and the base name. -/
theorem c5_counterexample_nested_sha_excluded :
    dictKeys (manifestDict H0 treeC5) = [str2l "a.txt"]
    ∧ manifestLines H0 treeC5 = [str2l "d0  a.txt\n"]
    ∧ joinSegs [str2l "manifest", str2l "sub", str2l "sha256sum.txt"] ≠ designatedStr := by
  decide

/-- Claim C5 (amended): for a tree with distinct, well-formed file paths,
`generate_manifest` emits exactly one line `<digest><two spaces><path>` with
a trailing newline for every regular file except those whose first segment is
`manifest` and whose base name is `sha256sum.txt` (a set that contains the
manifest's own designated path, which is therefore never listed), with the
lines sorted by path. -/
theorem c5_manifest_lines_exact (H : List Ch → List Ch) (s : List StagedEntry)
    (hnd : ((inclPairs s).map Prod.fst).Nodup)
    (hwf : ∀ e ∈ s, pathWF e.segs) :
    manifestLines H s =
      (sortAsc (fun kv => kv.1) (inclPairs s)).map
        (fun kv => H kv.2 ++ sepTwo ++ kv.1 ++ [10])
    ∧ (∀ l ∈ manifestLines H s, l.getLast? = some 10)
    ∧ designatedStr ∉ (inclPairs s).map Prod.fst := by
  have hD := manifestDict_eq H s hnd
  have hkeys := manifestDict_keys H s hnd
  have hmain : manifestLines H s =
      (sortAsc (fun kv => kv.1) (inclPairs s)).map
        (fun kv => H kv.2 ++ sepTwo ++ kv.1 ++ [10]) := by
    unfold manifestLines
    rw [hkeys]
    rw [show sortAsc (fun p => p) ((inclPairs s).map Prod.fst) =
        (sortAsc (fun kv => kv.1) (inclPairs s)).map Prod.fst from by
      simpa using sortAsc_map (Prod.fst (α := List Ch) (β := List Ch)) (fun x => x)
        (inclPairs s)]
    rw [List.map_map]
    apply List.map_congr_left
    intro kv hkv
    have hkvP : kv ∈ inclPairs s := (sortAsc_perm (fun kv => kv.1) _).mem_iff.mp hkv
    have hmem : (kv.1, H kv.2) ∈ manifestDict H s := by
      rw [hD]
      exact List.mem_map_of_mem (fun kv => (kv.1, H kv.2)) hkvP
    have hndD : ((manifestDict H s).map Prod.fst).Nodup := by
      rw [hD, List.map_map]
      simpa using hnd
    have hlook := assoc_lookup_of_mem (manifestDict H s) kv.1 (H kv.2) hndD hmem
    simp [Function.comp, dictGetD, hlook]
  refine ⟨hmain, ?_, ?_⟩
  · intro l hl
    rw [hmain] at hl
    rcases List.mem_map.mp hl with ⟨kv, _, rfl⟩
    exact List.getLast?_concat _
  · intro hmem
    rcases List.mem_map.mp hmem with ⟨kv, hkv, hfst⟩
    rcases inclPairs_mem hkv with ⟨e, hes, c, _, hexcl, hkveq⟩
    have hjoin : joinSegs e.segs = designatedStr := by
      rw [hkveq] at hfst
      exact hfst
    have hdstr : designatedStr = joinSegs designatedSegs := by decide
    have hsegs : e.segs = designatedSegs :=
      joinSegs_inj e.segs designatedSegs (hwf e hes) (by decide)
        (hjoin.trans hdstr)
    rw [hsegs] at hexcl
    exact absurd hexcl (by decide)

theorem c5_manifest_lines_exact_witness :
    manifestLines H0 treeC5w =
      (sortAsc (fun kv => kv.1) (inclPairs treeC5w)).map
        (fun kv => H0 kv.2 ++ sepTwo ++ kv.1 ++ [10]) :=
  (c5_manifest_lines_exact H0 treeC5w (by decide) (by decide)).1

/-- Claim C6 (counterexample): the member order is not the depth-first order
over lexicographically sorted path segments. On `stageC6` the builder emits
`a`, `a.txt`, `a/b`, although the segment-wise order (the claimed depth-first
traversal) puts `a/b` before `a.txt`; the produced order is thus not sorted
by the claimed relation. -/
theorem c6_counterexample_not_dfs_order :
    (packRun stageC6 0).1.map TarMember.name = [str2l "a", str2l "a.txt", str2l "a/b"]
    ∧ specSegLt (pyParts (str2l "a/b")) (pyParts (str2l "a.txt")) = true
    ∧ ¬ ((packRun stageC6 0).1.map (fun m => pyParts m.name)).Pairwise
        (fun a b => specSegLt a b = true) := by
  refine ⟨by decide, by decide, ?_⟩
  intro h
  have h2 := (List.pairwise_cons.mp h).2
  have h3 := (List.pairwise_cons.mp h2).1
  have h4 := h3 (pyParts (str2l "a/b")) (by decide)
  revert h4
  decide

/-- Claim C6 (amended): members are added in ascending order of the full
relative-path string (a flat lexicographic sort of `str(path)`, which is how
`sorted()` compares paths), not of the segment sequence; each staged entry
contributes exactly one member, added individually with `recursive=False`,
with no serializer-chosen expansion, up to the first unreadable file. -/
theorem c6_member_order_flat_sorted (s : List StagedEntry) (ep : Int) :
    ((packRun s ep).1.map TarMember.name).Pairwise (fun a b => strLt b a = false)
    ∧ (packRun s ep).1.map TarMember.name =
        (((stageSorted s).filter (fun e => !dsSkip e)).takeWhile readableB).map entryKey :=
  ⟨packRun_names_pairwise s ep, packRun_names s ep⟩

/-- Claim C7 (counterexample): the gzip wrapper's timestamp is not the
reproducibility timestamp. Building with epoch 5 produces members with
`mtime = 5` but a gzip wrapper timestamp of 0. -/
theorem c7_counterexample_gzip_mtime_zero :
    create_archive stageC7 5 = .ok arch7
    ∧ arch7.members.map TarMember.mtime = [5]
    ∧ arch7.gzipMtime ≠ (5 : Int) := by
  decide

/-- Claim C7 (amended): the compression wrapper carries no embedded filename
and its timestamp field is the constant 0 (so it never leaks the real build
time, and equals the reproducibility timestamp exactly when that timestamp is
0), while every archive member's timestamp is the reproducibility
timestamp. -/
theorem c7_gzip_wrapper_fields (s : List StagedEntry) (ep : Int) (a : Archive)
    (h : create_archive s ep = .ok a) :
    a.gzipFname = none ∧ a.gzipMtime = 0 ∧ ∀ m ∈ a.members, m.mtime = ep := by
  unfold create_archive at h
  cases hp : (packRun s ep).2 with
  | some e =>
    rw [hp] at h
    simp at h
  | none =>
    rw [hp] at h
    injection h with h2
    refine ⟨by rw [← h2], by rw [← h2], ?_⟩
    intro m hm
    rw [← h2] at hm
    exact addLoop_mtime ep (stageSorted s) m hm

theorem c7_gzip_wrapper_fields_witness : arch7.gzipFname = none ∧ arch7.gzipMtime = 0 := by
  have h := c7_gzip_wrapper_fields stageC7 5 arch7 (by decide)
  exact ⟨h.1, h.2.1⟩

/-- Claim C8 (counterexample): a partial archive remains at the output path.
On `stageC8`, whose file `b` is unreadable, the pack step aborts with a read
error but the output path still holds a nonempty stream containing the member
for `a` and no member for `b` — neither a complete archive nor no file at
all. -/
theorem c8_counterexample_truncated_stream_remains :
    (packRun stageC8 0).2 = some (.readError (str2l "b"))
    ∧ outputFileAfterPack stageC8 0 ≠ none
    ∧ (packRun stageC8 0).1.map TarMember.name = [str2l "a"]
    ∧ (str2l "b") ∉ (packRun stageC8 0).1.map TarMember.name := by
  decide

/-- Claim C8 (amended): the build aborts with an error at the first
unreadable (non-`.DS_Store`) file in sorted member order, and no bundle
result is returned; however, the members preceding it have already been
written, so the output path may retain a partial stream rather than holding a
complete archive or no file at all. -/
theorem c8_abort_on_unreadable (s : List StagedEntry) (ep : Int) :
    packRun s ep =
      ((((stageSorted s).filter (fun e => !dsSkip e)).takeWhile readableB).filterMap
         (mkMember ep),
       (((stageSorted s).filter (fun e => !dsSkip e)).dropWhile readableB).head?.map
         (fun e => PackErr.readError (joinSegs e.segs))) :=
  packRun_span s ep

/-- Claim C9 (counterexample): manifest parsing is not total over byte
sequences. The bytes of `"d0  a\n"` followed by the invalid byte `0xff` and a
newline make the text-mode UTF-8 read raise (modeled as `none`) instead of
discarding the offending line, while the same content without the invalid
byte parses to `{a: d0}`. -/
theorem c9_counterexample_invalid_utf8 :
    parseManifestBytes [100, 48, 32, 32, 97, 10, 255, 10] = none
    ∧ parseManifestBytes [100, 48, 32, 32, 97, 10] =
        some [(str2l "a", str2l "d0")] := by
  decide

/-- Claim C9 (amended): manifest parsing terminates without raising exactly
on UTF-8-decodable byte sequences — the strict text-mode decode raises
`UnicodeDecodeError` on any other input before line parsing starts. On
decoded text the line parser is total: blank and malformed lines are
discarded without affecting the result, and when several well-formed lines
share a path the digest of the last such line wins. -/
theorem c9_parse_utf8_total_last_wins :
    (∀ bs : List Nat, (parseManifestBytes bs).isSome = (utf8Decode bs).isSome)
    ∧ (∀ (pre post : List (List Ch)) (bad : List Ch), parseLine bad = none →
      parseLines (pre ++ bad :: post) = parseLines (pre ++ post))
    ∧ (∀ (pre : List (List Ch)) (L h p : List Ch) (post : List (List Ch)),
        parseLine L = some (h, p) →
        (∀ l ∈ post, ∀ pr, parseLine l = some pr → pr.2 ≠ p) →
        dictLookup (parseLines (pre ++ L :: post)) p = some h) := by
  refine ⟨?_, parseLines_skip, parseLines_last_wins⟩
  intro bs
  cases h : utf8Decode bs <;> simp [parseManifestBytes, h]

theorem c9_parse_utf8_total_last_wins_witness :
    parseLines ([str2l "garbage"] ++ str2l "" :: [str2l "d0  a"]) =
      parseLines ([str2l "garbage"] ++ [str2l "d0  a"])
    ∧ dictLookup (parseLines ([str2l "d0  a"] ++ str2l "d1  a" :: [str2l "d2  b"]))
        (str2l "a") = some (str2l "d1") := by
  constructor
  · exact c9_parse_utf8_total_last_wins.2.1 [str2l "garbage"] [str2l "d0  a"] (str2l "")
      (by decide)
  · refine c9_parse_utf8_total_last_wins.2.2 [str2l "d0  a"] (str2l "d1  a") (str2l "d1")
      (str2l "a") [str2l "d2  b"] (by decide) ?_
    intro l hl pr hpr
    rcases List.mem_singleton.mp hl with rfl
    rw [show parseLine (str2l "d2  b") = some (str2l "d2", str2l "b") from by decide]
      at hpr
    injection hpr with h'
    rw [← h']
    decide

/-- Claim C10: when `SOURCE_DATE_EPOCH` is unset or does not parse as an
integer, the reproducibility timestamp is 0 and the build does not fail:
every archive member's timestamp is 0, the gzip wrapper timestamp is 0, and
the `created_at_epoch` metadata field is 0. -/
theorem c10_epoch_defaults_zero (env : Option (List Ch))
    (henv : env = none ∨ ∃ t, env = some t ∧ pyParseInt t = none) :
    get_source_date_epoch env = 0
    ∧ (∀ s : List StagedEntry, ∀ m ∈ (packRun s (get_source_date_epoch env)).1,
        m.mtime = 0)
    ∧ (∀ (s : List StagedEntry) (a : Archive),
        create_archive s (get_source_date_epoch env) = .ok a → a.gzipMtime = 0)
    ∧ metadata_created_at_epoch env = 0 := by
  have h0 : get_source_date_epoch env = 0 := by
    rcases henv with rfl | ⟨t, rfl, ht⟩
    · decide
    · simp [get_source_date_epoch, ht]
  refine ⟨h0, ?_, ?_, h0⟩
  · intro s m hm
    rw [h0] at hm
    exact addLoop_mtime 0 (stageSorted s) m hm
  · intro s a ha
    unfold create_archive at ha
    cases hp : (packRun s (get_source_date_epoch env)).2 with
    | some e =>
      rw [hp] at ha
      simp at ha
    | none =>
      rw [hp] at ha
      injection ha with h2
      rw [← h2]

theorem c10_epoch_defaults_zero_witness :
    get_source_date_epoch (some (str2l "not-a-number")) = 0
    ∧ metadata_created_at_epoch (some (str2l "not-a-number")) = 0 := by
  have h := c10_epoch_defaults_zero (some (str2l "not-a-number"))
    (Or.inr ⟨str2l "not-a-number", rfl, by decide⟩)
  exact ⟨h.1, h.2.2.2⟩

end EvidencePack
